import Mathlib

/-
Verification of the MultiMountains environment (src/multi_mountains/module.py).

The terrain builder (`h`, `calc_height`, `get_env_points`, `calc_points`),
the peak selection (`x[::2][1:]`), and the physics state machine
(`step`, `reward`, `done`, `is_goal_reached`) are embedded over the reals.
The cubic spline `self.f` produced by scipy's `CubicSpline` is external
library code, so it is kept as an abstract function field `f : ℝ → ℝ`;
its numerical derivative `df` is embedded exactly as in the source.
-/

namespace MultiMountains

/-- The fixed hill-shape function, `h(x) = 0.45 * sin(3 x) + 0.55`
(method `MultiMountainsEnv.h`). -/
noncomputable def h (x : ℝ) : ℝ := 0.45 * Real.sin (3 * x) + 0.55

/-- Height of the third control point of a segment with angle `a` degrees
(method `MultiMountainsEnv.calc_height`). -/
noncomputable def calc_height (a : ℝ) : ℝ :=
  let b_h := h (-Real.pi / 6)
  let g_h := h 0.5
  let angle := Real.arctan ((g_h - b_h) / 1.1) + 2 * a * Real.pi / 360
  b_h + Real.tan angle * 1.1

/-- The three local control points of one hill segment
(method `MultiMountainsEnv.get_env_points`): `x1 = -1.2`, `x2 = -pi/6`,
third point at `0.5` with angle-dependent height. -/
noncomputable def get_env_points (angle : ℝ) : List (ℝ × ℝ) :=
  [(-1.2, h (-1.2)), (-Real.pi / 6, h (-Real.pi / 6)), (0.5, calc_height angle)]

/-- The loop body of `MultiMountainsEnv.calc_points` for the segments with
index `i > 0`: the local first point (`j = 0`) is skipped, and the two
remaining points are appended shifted by the offset between the last
already-accepted point (`points[idx]` with `idx = len(points) - 1`) and the
segment's own local first point (`pts[0]`). -/
noncomputable def calc_points_rest : List ℝ → List (ℝ × ℝ) → List (ℝ × ℝ)
  | [], points => points
  | a :: rest, points =>
    let pts := get_env_points a
    let lastP := points.getLastD (0, 0)
    let p0 := pts.getD 0 (0, 0)
    let p1 := pts.getD 1 (0, 0)
    let p2 := pts.getD 2 (0, 0)
    let off_x := lastP.1 - p0.1
    let off_y := lastP.2 - p0.2
    calc_points_rest rest
      (points ++ [(p1.1 + off_x, p1.2 + off_y), (p2.1 + off_x, p2.2 + off_y)])

/-- `MultiMountainsEnv.calc_points`: the first segment (`i = 0`) contributes
all three of its local points unmodified, every later segment is handled by
`calc_points_rest`. -/
noncomputable def calc_points (angles : List ℝ) : List (ℝ × ℝ) :=
  match angles with
  | [] => []
  | a :: rest => calc_points_rest rest (get_env_points a)

/-- Numpy slicing `l[::2]`: every other element starting from index 0. -/
def stride2 {α : Type} : List α → List α
  | [] => []
  | [a] => [a]
  | a :: _ :: rest => a :: stride2 rest

/-- The environment's construction parameters (`MultiMountainsEnv.__init__`).
The interpolant `self.f = CubicSpline(self.x, self.y, bc_type="clamped")` is
scipy library code, kept abstract as the function field `f`. -/
structure Env where
  angles : List ℝ
  max_step : ℕ
  g : ℝ
  F : ℝ
  delta : ℝ
  f : ℝ → ℝ

/-- `self.points = np.array(self.calc_points(angles))`. -/
noncomputable def Env.points (e : Env) : List (ℝ × ℝ) := calc_points e.angles

/-- `self.x = self.points[:, 0]`: the x-coordinates of the control points. -/
noncomputable def Env.x (e : Env) : List ℝ := e.points.map Prod.fst

/-- `self.x_peaks = self.x[::2][1:]`. -/
noncomputable def Env.x_peaks (e : Env) : List ℝ := (stride2 e.x).drop 1

/-- `self.x.min()` (numpy reduction by `min`; the empty default is never
reached for a nonempty angle sequence). -/
noncomputable def Env.xmin (e : Env) : ℝ :=
  match e.x with
  | [] => 0
  | a :: rest => rest.foldl min a

/-- `self.x.max()`. -/
noncomputable def Env.xmax (e : Env) : ℝ :=
  match e.x with
  | [] => 0
  | a :: rest => rest.foldl max a

/-- `self.max_speed = 0.07` (hardcoded in `__init__`). -/
noncomputable def max_speed : ℝ := 0.07

/-- `MultiMountainsEnv.df`: forward finite difference `(f(x+d) - f(x)) / d`. -/
noncomputable def Env.df (e : Env) (x : ℝ) : ℝ :=
  (e.f (x + e.delta) - e.f x) / e.delta

/-- `np.clip(x, lo, hi) = min(max(x, lo), hi)`. -/
noncomputable def clip (x lo hi : ℝ) : ℝ := min (max x lo) hi

open scoped Classical in
/-- The state-update part of `MultiMountainsEnv.step`: velocity update,
velocity clamp, position update, position clamp, and the left-wall bounce
(`if x <= self.x.min() and v < 0: v = 1e-2`).  The action is an arbitrary
integer, exactly as in the source, which performs no validation. -/
noncomputable def Env.step (e : Env) (s : ℝ × ℝ) (action : ℤ) : ℝ × ℝ :=
  let x := s.1
  let v := s.2
  let v1 := v + ((action : ℝ) - 1) * e.F - e.df x * e.g
  let v2 := clip v1 (-max_speed) max_speed
  let x1 := clip (x + v2) e.xmin e.xmax
  let v3 := if x1 ≤ e.xmin ∧ v2 < 0 then 1e-2 else v2
  (x1, v3)

open scoped Classical in
/-- `MultiMountainsEnv.reward`: `+5` if for some peak `x > peak` and
`p < peak`, else `-5` if for some peak `x < peak` and `p > peak`, else `-1`. -/
noncomputable def Env.reward (e : Env) (p x : ℝ) : ℝ :=
  if ∃ pk ∈ e.x_peaks, x > pk ∧ p < pk then 5
  else if ∃ pk ∈ e.x_peaks, x < pk ∧ p > pk then -5
  else -1

/-- `MultiMountainsEnv.is_goal_reached`: `self.state[0] >= self.x[-1]`. -/
noncomputable def Env.is_goal_reached (e : Env) (x : ℝ) : Prop :=
  x ≥ e.x.getLastD 0

/-- `MultiMountainsEnv.done`:
`self.counter == self.max_step or self.is_goal_reached()`. -/
noncomputable def Env.done (e : Env) (counter : ℕ) (x : ℝ) : Prop :=
  counter = e.max_step ∨ e.is_goal_reached x

/-- A concrete environment instance: one hill (`angles = [0]`), all the
default construction parameters, and the zero function in place of the
spline (the spline is library code; any function exercises the physics). -/
noncomputable def E0 : Env :=
  { angles := [0], max_step := 500, g := 0.0025, F := 1e-3,
    delta := 1e-12, f := fun _ => 0 }

/-- A second concrete instance differing from `E0` only in the angle value. -/
noncomputable def E45 : Env :=
  { angles := [45], max_step := 500, g := 0.0025, F := 1e-3,
    delta := 1e-12, f := fun _ => 0 }

/-- The first of the two points a later segment contributes, as a function of
the previous segment's final point `l`: the local point `(-pi/6, h(-pi/6))`
shifted by the offset `l - (-1.2, h(-1.2))`. -/
noncomputable def q1 (l : ℝ × ℝ) : ℝ × ℝ :=
  (-Real.pi / 6 + (l.1 - (-1.2)), h (-Real.pi / 6) + (l.2 - h (-1.2)))

/-- The second of the two points a later segment contributes: the local point
`(0.5, calc_height a)` shifted by the offset `l - (-1.2, h(-1.2))`. -/
noncomputable def q2 (a : ℝ) (l : ℝ × ℝ) : ℝ × ℝ :=
  (0.5 + (l.1 - (-1.2)), calc_height a + (l.2 - h (-1.2)))

/-- The points contributed by the segments after the first, as a pure function
of the remaining angles and the previous final point. -/
noncomputable def tailPoints : List ℝ → ℝ × ℝ → List (ℝ × ℝ)
  | [], _ => []
  | a :: rest, l => q1 l :: q2 a l :: tailPoints rest (q2 a l)

/-- The final accepted point after processing the given angles, starting from
previous final point `l`. -/
noncomputable def tlast : List ℝ → ℝ × ℝ → ℝ × ℝ
  | [], l => l
  | a :: rest, l => tlast rest (q2 a l)

theorem getLastD_irrel {α : Type} (w : List α) (d d' : α) (hw : w ≠ []) :
    w.getLastD d = w.getLastD d' := by
  cases w with
  | nil => exact absurd rfl hw
  | cons a t => rw [List.getLastD_cons, List.getLastD_cons]

theorem getLastD_append {α : Type} (u : List α) :
    ∀ (w : List α) (d : α), w ≠ [] → (u ++ w).getLastD d = w.getLastD d := by
  induction u with
  | nil => intro w d _; rfl
  | cons a u ih =>
    intro w d hw
    rw [List.cons_append, List.getLastD_cons, ih w a hw, getLastD_irrel w a d hw]

theorem calc_points_rest_eq :
    ∀ (as : List ℝ) (points : List (ℝ × ℝ)), points ≠ [] →
      calc_points_rest as points = points ++ tailPoints as (points.getLastD (0, 0)) := by
  intro as
  induction as with
  | nil => intro points _; simp [calc_points_rest, tailPoints]
  | cons a rest ih =>
    intro points hne
    simp only [calc_points_rest, get_env_points, List.getD_cons_zero, List.getD_cons_succ]
    rw [ih _ (by simp), getLastD_append _ _ _ (by simp)]
    simp [tailPoints, q1, q2]

theorem calc_points_cons (a : ℝ) (rest : List ℝ) :
    calc_points (a :: rest) = get_env_points a ++ tailPoints rest (0.5, calc_height a) := by
  rw [calc_points, calc_points_rest_eq rest (get_env_points a) (by simp [get_env_points])]
  congr 1

theorem tailPoints_length : ∀ (as : List ℝ) (l : ℝ × ℝ),
    (tailPoints as l).length = 2 * as.length
  | [], _ => by simp [tailPoints]
  | a :: rest, l => by
    simp [tailPoints, tailPoints_length rest (q2 a l)]
    ring

theorem calc_points_length (a : ℝ) (rest : List ℝ) :
    (calc_points (a :: rest)).length = 2 * rest.length + 3 := by
  rw [calc_points_cons]
  simp [get_env_points, tailPoints_length]

theorem stride2_length {α : Type} : ∀ (l : List α), (stride2 l).length = (l.length + 1) / 2
  | [] => by simp [stride2]
  | [a] => by simp [stride2]
  | a :: b :: t => by
    simp only [stride2, List.length_cons, stride2_length t]
    omega

theorem stride2_getD {α : Type} : ∀ (l : List α) (i : ℕ) (d : α),
    (stride2 l).getD i d = l.getD (2 * i) d
  | [], i, d => by simp [stride2]
  | [a], 0, d => by simp [stride2]
  | [a], i + 1, d => by
    have h2 : 2 * (i + 1) = 2 * i + 1 + 1 := by ring
    simp [stride2, h2, List.getD_cons_succ]
  | a :: b :: t, 0, d => by simp [stride2]
  | a :: b :: t, i + 1, d => by
    have h2 : 2 * (i + 1) = 2 * i + 1 + 1 := by ring
    simp only [stride2, h2, List.getD_cons_succ]
    exact stride2_getD t i d

theorem foldl_min_le (l : List ℝ) : ∀ (a : ℝ), l.foldl min a ≤ a := by
  induction l with
  | nil => intro a; simp
  | cons b t ih =>
    intro a
    have h1 := ih (min a b)
    simp only [List.foldl_cons] at *
    exact le_trans h1 (min_le_left a b)

theorem le_foldl_max (l : List ℝ) : ∀ (a : ℝ), a ≤ l.foldl max a := by
  induction l with
  | nil => intro a; simp
  | cons b t ih =>
    intro a
    have h1 := ih (max a b)
    simp only [List.foldl_cons] at *
    exact le_trans (le_max_left a b) h1

theorem Env.x_cons (e : Env) (b : ℝ) (bs : List ℝ) (hb : e.angles = b :: bs) :
    e.x = -1.2 :: -Real.pi / 6 :: 0.5 ::
      (tailPoints bs (0.5, calc_height b)).map Prod.fst := by
  rw [Env.x, Env.points, hb, calc_points_cons]
  simp [get_env_points]

theorem Env.xmin_le_xmax (e : Env) (hne : e.angles ≠ []) : e.xmin ≤ e.xmax := by
  obtain ⟨b, bs, hb⟩ := List.exists_cons_of_ne_nil hne
  have hx := e.x_cons b bs hb
  rw [Env.xmin, Env.xmax, hx]
  exact le_trans (foldl_min_le _ _) (le_foldl_max _ _)

theorem tailPoints_chain : ∀ (as : List ℝ) (l : ℝ × ℝ),
    List.Chain' (· < ·) (l.1 :: (tailPoints as l).map Prod.fst)
  | [], l => by simp [tailPoints]
  | a :: rest, l => by
    have hpi : Real.pi < 3.15 := Real.pi_lt_d2
    have hpi3 : 3 < Real.pi := Real.pi_gt_three
    have ih := tailPoints_chain rest (q2 a l)
    simp only [tailPoints, List.map_cons, List.chain'_cons]
    refine ⟨?_, ?_, ?_⟩
    · simp only [q1]; linarith
    · simp only [q1, q2]; linarith
    · simpa [q2] using ih

theorem calc_points_x_chain (a : ℝ) (rest : List ℝ) :
    List.Chain' (· < ·) ((calc_points (a :: rest)).map Prod.fst) := by
  rw [calc_points_cons]
  have hpi : Real.pi < 3.15 := Real.pi_lt_d2
  have hpi3 : 3 < Real.pi := Real.pi_gt_three
  have htail := tailPoints_chain rest (0.5, calc_height a)
  simp only [get_env_points, List.cons_append, List.nil_append, List.map_cons,
    List.chain'_cons]
  refine ⟨by linarith, by linarith, by simpa using htail⟩

theorem E0_x : E0.x = [-1.2, -Real.pi / 6, 0.5] := by
  simp [E0, Env.x, Env.points, calc_points, calc_points_rest, get_env_points]

theorem E0_xmin : E0.xmin = -1.2 := by
  rw [Env.xmin, E0_x]
  have hpi : Real.pi < 3.15 := Real.pi_lt_d2
  have h1 : (-1.2 : ℝ) ≤ -Real.pi / 6 := by linarith
  simp only [List.foldl_cons, List.foldl_nil]
  rw [min_eq_left h1, min_eq_left (by norm_num)]

theorem E0_xmax : E0.xmax = 0.5 := by
  rw [Env.xmax, E0_x]
  have hpi : Real.pi < 3.15 := Real.pi_lt_d2
  have hpi3 : 3 < Real.pi := Real.pi_gt_three
  have h1 : (-1.2 : ℝ) ≤ -Real.pi / 6 := by linarith
  have h2 : -Real.pi / 6 ≤ (0.5 : ℝ) := by linarith
  simp only [List.foldl_cons, List.foldl_nil]
  rw [max_eq_right h1, max_eq_right h2]

theorem E0_peaks : E0.x_peaks = [0.5] := by
  rw [Env.x_peaks, E0_x]
  simp [stride2]

theorem E0_df (x : ℝ) : E0.df x = 0 := by
  simp [Env.df, E0]

theorem tailPoints_append : ∀ (u v : List ℝ) (l : ℝ × ℝ),
    tailPoints (u ++ v) l = tailPoints u l ++ tailPoints v (tlast u l)
  | [], v, l => by simp [tailPoints, tlast]
  | a :: u, v, l => by
    show q1 l :: q2 a l :: tailPoints (u ++ v) (q2 a l) =
      (q1 l :: q2 a l :: tailPoints u (q2 a l)) ++ tailPoints v (tlast u (q2 a l))
    rw [tailPoints_append u v (q2 a l)]
    simp

theorem tailPoints_getLastD : ∀ (as : List ℝ) (l d : ℝ × ℝ), as ≠ [] →
    (tailPoints as l).getLastD d = tlast as l := by
  intro as
  induction as with
  | nil => intro l d hne; exact absurd rfl hne
  | cons c t ih =>
    intro l d _
    simp only [tailPoints, List.getLastD_cons, tlast]
    cases t with
    | nil => simp [tailPoints, tlast]
    | cons c' t' => exact ih (q2 c l) (q2 c l) (by simp)

theorem calc_points_getLastD (b : ℝ) (bs : List ℝ) :
    (calc_points (b :: bs)).getLastD (0, 0) = tlast bs (0.5, calc_height b) := by
  rw [calc_points_cons]
  cases bs with
  | nil => simp [tailPoints, tlast, get_env_points]
  | cons c t =>
    rw [getLastD_append _ _ _ (by simp [tailPoints]),
      tailPoints_getLastD _ _ _ (by simp)]

theorem drop_one_getD {α : Type} (l : List α) (i : ℕ) (d : α) :
    (l.drop 1).getD i d = l.getD (1 + i) d := by
  cases l with
  | nil => simp
  | cons a t => simp [List.getD_cons_succ, Nat.add_comm]

theorem tailPoints_map_fst : ∀ (as bs : List ℝ) (l m : ℝ × ℝ),
    as.length = bs.length → l.1 = m.1 →
    (tailPoints as l).map Prod.fst = (tailPoints bs m).map Prod.fst
  | [], [], _, _, _, _ => rfl
  | [], b :: bs, l, m, hlen, _ => by simp at hlen
  | a :: as, [], l, m, hlen, _ => by simp at hlen
  | a :: as, b :: bs, l, m, hlen, h1 => by
    have hq : (q2 a l).1 = (q2 b m).1 := by simp [q2, h1]
    have ih := tailPoints_map_fst as bs (q2 a l) (q2 b m) (by simpa using hlen) hq
    simp only [tailPoints, List.map_cons]
    rw [show (q1 l).1 = (q1 m).1 from by simp [q1, h1], hq, ih]

/-- C8: for every nonempty angle sequence (whatever the angle values), the
x-coordinates of the control points returned by `calc_points` are strictly
increasing across the whole sequence. -/
theorem c8_x_strictly_increasing :
    ∀ (angles : List ℝ), angles ≠ [] →
      ((calc_points angles).map Prod.fst).Pairwise (· < ·) := by
  intro angles hne
  obtain ⟨a, rest, rfl⟩ := List.exists_cons_of_ne_nil hne
  exact List.chain'_iff_pairwise.mp (calc_points_x_chain a rest)

/-- Witness for C8 at the concrete angle sequence `[0]`. -/
theorem c8_witness :
    ([0] : List ℝ) ≠ [] ∧ ((calc_points [0]).map Prod.fst).Pairwise (· < ·) :=
  ⟨by simp, c8_x_strictly_increasing [0] (by simp)⟩

/-- C10: two environments whose angle sequences have equal length have
pointwise identical control-point x-coordinates, hence identical peak
abscissas: the angle values influence only the y-coordinates. -/
theorem c10_x_coords_angle_independent :
    ∀ (e1 e2 : Env), e1.angles.length = e2.angles.length →
      e1.x = e2.x ∧ e1.x_peaks = e2.x_peaks := by
  intro e1 e2 hlen
  rcases h1 : e1.angles with _ | ⟨a, as⟩
  · rcases h2 : e2.angles with _ | ⟨b, bs⟩
    · have hx : e1.x = e2.x := by
        rw [Env.x, Env.x, Env.points, Env.points, h1, h2]
      exact ⟨hx, by rw [Env.x_peaks, Env.x_peaks, hx]⟩
    · rw [h1, h2] at hlen; simp at hlen
  · rcases h2 : e2.angles with _ | ⟨b, bs⟩
    · rw [h1, h2] at hlen; simp at hlen
    · have hlen2 : as.length = bs.length := by
        rw [h1, h2] at hlen; simpa using hlen
      have hx : e1.x = e2.x := by
        rw [e1.x_cons a as h1, e2.x_cons b bs h2,
          tailPoints_map_fst as bs (0.5, calc_height a) (0.5, calc_height b) hlen2 rfl]
      exact ⟨hx, by rw [Env.x_peaks, Env.x_peaks, hx]⟩

/-- Witness for C10 at the concrete environments `E0` (angles `[0]`) and
`E45` (angles `[45]`). -/
theorem c10_witness :
    E0.angles.length = E45.angles.length ∧ (E0.x = E45.x ∧ E0.x_peaks = E45.x_peaks) :=
  ⟨by simp [E0, E45], c10_x_coords_angle_independent E0 E45 (by simp [E0, E45])⟩

/-- Counterexample to C3: for the one-angle environment `E0`, the peak list
has length 1, not `len(angles) - 1 = 0`. -/
theorem c3_counterexample :
    E0.x_peaks.length = 1 ∧ E0.angles.length = 1 ∧
      E0.x_peaks.length ≠ E0.angles.length - 1 := by
  refine ⟨?_, by simp [E0], ?_⟩
  · rw [E0_peaks]; rfl
  · rw [E0_peaks]; simp [E0]

/-- C3 (amended): the peaks are the control points obtained by taking every
second x-coordinate and dropping the first (`x[::2][1:]`, i.e. the
abscissas at indices 2, 4, ..., 2N), and their number equals
`len(angles)`, not `len(angles) - 1`. -/
theorem c3_peaks_amended :
    ∀ (e : Env), e.angles ≠ [] →
      e.x_peaks.length = e.angles.length ∧
      ∀ i : ℕ, e.x_peaks.getD i 0 = e.x.getD (2 * i + 2) 0 := by
  intro e hne
  obtain ⟨b, bs, hb⟩ := List.exists_cons_of_ne_nil hne
  constructor
  · have hxlen : e.x.length = 2 * bs.length + 3 := by
      rw [Env.x, Env.points, hb]
      simp [calc_points_length]
    rw [Env.x_peaks, List.length_drop, stride2_length, hxlen, hb]
    simp only [List.length_cons]
    omega
  · intro i
    rw [Env.x_peaks, drop_one_getD, stride2_getD]
    congr 1
    omega

/-- Witness for C3 (amended) at the concrete environment `E0`. -/
theorem c3_witness :
    E0.angles ≠ [] ∧ E0.x_peaks.length = E0.angles.length ∧
      E0.x_peaks.getD 0 0 = E0.x.getD 2 0 :=
  ⟨by simp [E0], (c3_peaks_amended E0 (by simp [E0])).1,
    (c3_peaks_amended E0 (by simp [E0])).2 0⟩

/-- C7: for any nonempty prefix of angles, the segment for the next angle
appends exactly its two last local points shifted by the offset between
the last already-accepted point and the segment's own local first point,
and the shifted local first point coincides exactly with the last accepted
point (zero gap between consecutive segments). -/
theorem c7_segment_continuity (pre : List ℝ) (a : ℝ) (post : List ℝ)
    (hne : pre ≠ []) (lastP p0 p1 p2 : ℝ × ℝ)
    (hlast : lastP = (calc_points pre).getLastD (0, 0))
    (hp0 : p0 = (get_env_points a).getD 0 (0, 0))
    (hp1 : p1 = (get_env_points a).getD 1 (0, 0))
    (hp2 : p2 = (get_env_points a).getD 2 (0, 0)) :
    ∃ suffix : List (ℝ × ℝ),
      calc_points (pre ++ a :: post) =
        calc_points pre ++
          [(p1.1 + (lastP.1 - p0.1), p1.2 + (lastP.2 - p0.2)),
           (p2.1 + (lastP.1 - p0.1), p2.2 + (lastP.2 - p0.2))] ++ suffix
      ∧ (p0.1 + (lastP.1 - p0.1), p0.2 + (lastP.2 - p0.2)) = lastP := by
  have hgap : (p0.1 + (lastP.1 - p0.1), p0.2 + (lastP.2 - p0.2)) = lastP := by
    have e1 : p0.1 + (lastP.1 - p0.1) = lastP.1 := by ring
    have e2 : p0.2 + (lastP.2 - p0.2) = lastP.2 := by ring
    rw [e1, e2]
  obtain ⟨b, bs, rfl⟩ := List.exists_cons_of_ne_nil hne
  refine ⟨tailPoints post (q2 a lastP), ?_, hgap⟩
  subst hp0 hp1 hp2
  have hL : lastP = tlast bs (0.5, calc_height b) := by
    rw [hlast, calc_points_getLastD]
  rw [List.cons_append, calc_points_cons b (bs ++ a :: post), tailPoints_append,
    calc_points_cons b bs, hL]
  simp only [tailPoints, tlast, get_env_points, List.getD_cons_zero,
    List.getD_cons_succ, q1, q2, List.append_assoc, List.cons_append,
    List.nil_append]

/-- Witness for C7 at the concrete input `pre = [0]`, `a = 45`, `post = []`. -/
theorem c7_witness :
    ∃ suffix : List (ℝ × ℝ),
      calc_points ([0] ++ 45 :: []) =
        calc_points [0] ++
          [(-Real.pi / 6 + ((0.5 : ℝ) - (-1.2)), h (-Real.pi / 6) + (calc_height 0 - h (-1.2))),
           ((0.5 : ℝ) + ((0.5 : ℝ) - (-1.2)), calc_height 45 + (calc_height 0 - h (-1.2)))] ++ suffix
      ∧ ((-1.2 : ℝ) + ((0.5 : ℝ) - (-1.2)), h (-1.2) + (calc_height 0 - h (-1.2)))
          = ((0.5 : ℝ), calc_height 0) :=
  c7_segment_continuity [0] 45 [] (by simp) (0.5, calc_height 0) (-1.2, h (-1.2))
    (-Real.pi / 6, h (-Real.pi / 6)) (0.5, calc_height 45) rfl rfl rfl rfl

theorem pairwise_le_getLastD : ∀ (l : List ℝ), l.Pairwise (· < ·) →
    ∀ p ∈ l, p ≤ l.getLastD 0 := by
  intro l
  induction l with
  | nil => intro _ p hp; simp at hp
  | cons a t ih =>
    intro hpw p hp
    rw [List.getLastD_cons]
    have hlt : ∀ b ∈ t, a < b := (List.pairwise_cons.mp hpw).1
    have hpw' : t.Pairwise (· < ·) := (List.pairwise_cons.mp hpw).2
    cases t with
    | nil =>
      simp at hp
      subst hp
      rfl
    | cons c t' =>
      rw [getLastD_irrel _ a 0 (by simp)]
      rcases List.mem_cons.mp hp with rfl | hp'
      · have hc : p < c := hlt c (by simp)
        have hc2 := ih hpw' c (by simp)
        linarith
      · exact ih hpw' p hp'

/-- Counterexample to C1: at the state `(-1.2, 0)` (which lies in
`[x_min, x_max]` of `E0`) with action 0, the wall-bounce branch fires, so the
new velocity is `1e-2` and not the clamp value `-1e-3` that the claim
prescribes. -/
theorem c1_counterexample :
    E0.xmin ≤ -1.2 ∧ (-1.2 : ℝ) ≤ E0.xmax ∧
    (E0.step (-1.2, 0) 0).2 = 1e-2 ∧
    clip (0 + (((0 : ℤ) : ℝ) - 1) * E0.F
        - (E0.f (-1.2 + E0.delta) - E0.f (-1.2)) / E0.delta * E0.g)
      (-max_speed) max_speed = -(1e-3) ∧
    (1e-2 : ℝ) ≠ -(1e-3) := by
  refine ⟨le_of_eq E0_xmin, by rw [E0_xmax]; norm_num, ?_, ?_, by norm_num⟩
  · simp only [Env.step, E0_df, E0_xmin, E0_xmax]
    norm_num [E0, clip, max_speed, min_def, max_def]
  · norm_num [E0, clip, max_speed, min_def, max_def]

/-- C1 (amended): for every in-range state and action, the new position is
`x' = clamp(x + v', x_min, x_max)` with
`v' = clamp(v + (action-1)*F - derivative(x)*g, -v_max, v_max)` and
`derivative(x) = (f(x+delta) - f(x))/delta`; the new velocity equals `v'`
except when the wall-bounce condition `x' <= x_min and v' < 0` holds, in which
case it is `1e-2`. -/
theorem c1_step_formulas (e : Env) (x v : ℝ) (a : ℤ) (v2 x1 : ℝ)
    (hx1 : e.xmin ≤ x) (hx2 : x ≤ e.xmax)
    (hv2 : v2 = clip (v + ((a : ℝ) - 1) * e.F
        - (e.f (x + e.delta) - e.f x) / e.delta * e.g) (-max_speed) max_speed)
    (hxc : x1 = clip (x + v2) e.xmin e.xmax) :
    (e.step (x, v) a).1 = x1
    ∧ (¬(x1 ≤ e.xmin ∧ v2 < 0) → (e.step (x, v) a).2 = v2)
    ∧ ((x1 ≤ e.xmin ∧ v2 < 0) → (e.step (x, v) a).2 = 1e-2) := by
  subst hv2 hxc
  refine ⟨rfl, ?_, ?_⟩
  · intro hcond
    simp only [Env.step, Env.df]
    rw [if_neg hcond]
  · intro hcond
    simp only [Env.step, Env.df]
    rw [if_pos hcond]

/-- Witness for C1 (amended) at environment `E0`, state `(0, 0)`, action 1. -/
theorem c1_witness :
    (E0.step (0, 0) 1).1 = 0 ∧ (E0.step (0, 0) 1).2 = 0 := by
  have hv2 : (0 : ℝ) = clip (0 + (((1 : ℤ) : ℝ) - 1) * E0.F
      - (E0.f (0 + E0.delta) - E0.f 0) / E0.delta * E0.g) (-max_speed) max_speed := by
    norm_num [E0, clip, max_speed, min_def, max_def]
  have hxc : (0 : ℝ) = clip (0 + 0) E0.xmin E0.xmax := by
    rw [E0_xmin, E0_xmax]
    norm_num [clip, min_def, max_def]
  have hh := c1_step_formulas E0 0 0 1 0 0 (by rw [E0_xmin]; norm_num)
    (by rw [E0_xmax]; norm_num) hv2 hxc
  refine ⟨hh.1, hh.2.1 ?_⟩
  rw [E0_xmin]
  norm_num

/-- C2: the reward is +5 when the step crossed some peak rightward (checked
first, so a step satisfying both crossing conditions yields +5), else -5 when
it crossed some peak leftward, else -1. -/
theorem c2_reward_cases (e : Env) (p x : ℝ) :
    ((∃ pk ∈ e.x_peaks, p < pk ∧ x > pk) → e.reward p x = 5)
    ∧ ((¬∃ pk ∈ e.x_peaks, p < pk ∧ x > pk) →
        (∃ pk ∈ e.x_peaks, p > pk ∧ x < pk) → e.reward p x = -5)
    ∧ ((¬∃ pk ∈ e.x_peaks, p < pk ∧ x > pk) →
        (¬∃ pk ∈ e.x_peaks, p > pk ∧ x < pk) → e.reward p x = -1) := by
  refine ⟨?_, ?_, ?_⟩
  · intro hpos
    have hc : ∃ pk ∈ e.x_peaks, x > pk ∧ p < pk := by
      obtain ⟨pk, hm, h1, h2⟩ := hpos
      exact ⟨pk, hm, h2, h1⟩
    rw [Env.reward, if_pos hc]
  · intro hneg hcross
    have h1 : ¬∃ pk ∈ e.x_peaks, x > pk ∧ p < pk := by
      rintro ⟨pk, hm, ha, hb⟩
      exact hneg ⟨pk, hm, hb, ha⟩
    have h2 : ∃ pk ∈ e.x_peaks, x < pk ∧ p > pk := by
      obtain ⟨pk, hm, ha, hb⟩ := hcross
      exact ⟨pk, hm, hb, ha⟩
    rw [Env.reward, if_neg h1, if_pos h2]
  · intro hneg1 hneg2
    have h1 : ¬∃ pk ∈ e.x_peaks, x > pk ∧ p < pk := by
      rintro ⟨pk, hm, ha, hb⟩
      exact hneg1 ⟨pk, hm, hb, ha⟩
    have h2 : ¬∃ pk ∈ e.x_peaks, x < pk ∧ p > pk := by
      rintro ⟨pk, hm, ha, hb⟩
      exact hneg2 ⟨pk, hm, hb, ha⟩
    rw [Env.reward, if_neg h1, if_neg h2]

/-- Witness for C2 at `E0` (single peak at 0.5), previous position 0 and new
position 1: a rightward crossing, reward +5. -/
theorem c2_witness :
    (∃ pk ∈ E0.x_peaks, (0 : ℝ) < pk ∧ (1 : ℝ) > pk) ∧ E0.reward 0 1 = 5 := by
  have hpos : ∃ pk ∈ E0.x_peaks, (0 : ℝ) < pk ∧ (1 : ℝ) > pk := by
    rw [E0_peaks]
    exact ⟨0.5, by simp, by norm_num, by norm_num⟩
  exact ⟨hpos, (c2_reward_cases E0 0 1).1 hpos⟩

/-- C4: after any step from any state with any integer action, the stored
velocity satisfies `|v| <= v_max` and the stored position lies in
`[x_min, x_max]` exactly (including the wall-bounce branch, which assigns
`v = 1e-2 <= v_max`). -/
theorem c4_clamp_invariant (e : Env) (hne : e.angles ≠ []) (s : ℝ × ℝ) (a : ℤ) :
    |(e.step s a).2| ≤ max_speed
    ∧ e.xmin ≤ (e.step s a).1 ∧ (e.step s a).1 ≤ e.xmax := by
  have hmm := e.xmin_le_xmax hne
  refine ⟨?_, ?_, ?_⟩
  · simp only [Env.step]
    split_ifs with hcond
    · rw [abs_le, max_speed]
      constructor <;> norm_num
    · rw [abs_le]
      constructor
      · simp only [clip]
        refine le_min (le_max_right _ _) ?_
        rw [max_speed]; norm_num
      · simp only [clip]
        exact min_le_right _ _
  · simp only [Env.step, clip]
    exact le_min (le_max_right _ _) hmm
  · simp only [Env.step, clip]
    exact min_le_right _ _

/-- Witness for C4 at `E0`, state `(0, 0)`, action 1. -/
theorem c4_witness :
    E0.angles ≠ [] ∧ (|(E0.step (0, 0) 1).2| ≤ max_speed
      ∧ E0.xmin ≤ (E0.step (0, 0) 1).1 ∧ (E0.step (0, 0) 1).1 ≤ E0.xmax) :=
  ⟨by simp [E0], c4_clamp_invariant E0 (by simp [E0]) (0, 0) 1⟩

/-- C5: `done` holds iff the counter equals `max_step` or the position is at
least the last control-point abscissa `x[-1]`; that abscissa is the rightmost
one (it bounds every control-point abscissa from above); and when the position
reaches it, `done` holds for every counter value. -/
theorem c5_done_characterization (e : Env) (hne : e.angles ≠ [])
    (counter : ℕ) (x : ℝ) :
    (e.done counter x ↔ counter = e.max_step ∨ x ≥ e.x.getLastD 0)
    ∧ (∀ p ∈ e.x, p ≤ e.x.getLastD 0)
    ∧ (x ≥ e.x.getLastD 0 → ∀ c : ℕ, e.done c x) := by
  refine ⟨Iff.rfl, ?_, ?_⟩
  · obtain ⟨b, bs, hb⟩ := List.exists_cons_of_ne_nil hne
    have hpw : e.x.Pairwise (· < ·) := by
      rw [Env.x, Env.points, hb]
      exact List.chain'_iff_pairwise.mp (calc_points_x_chain b bs)
    exact pairwise_le_getLastD e.x hpw
  · intro hx c
    exact Or.inr hx

/-- Witness for C5 at `E0`, counter 0, position 0. -/
theorem c5_witness :
    E0.angles ≠ [] ∧
      ((E0.done 0 0 ↔ 0 = E0.max_step ∨ (0 : ℝ) ≥ E0.x.getLastD 0)
       ∧ (∀ p ∈ E0.x, p ≤ E0.x.getLastD 0)
       ∧ ((0 : ℝ) ≥ E0.x.getLastD 0 → ∀ c : ℕ, E0.done c 0)) :=
  ⟨by simp [E0], c5_done_characterization E0 (by simp [E0]) 0 0⟩

/-- C6: whenever the clamped position is at the minimum and the clamped
velocity is negative, the stored velocity is forced to `1e-2`; consequently,
from state `(x_min, -0.01)` with action 1 the post-step velocity is strictly
positive (under the nondegeneracy condition that the gravity term does not
cancel the initial velocity, which holds e.g. whenever
`derivative(x_min) * g > -0.01`). -/
theorem c6_wall_bounce :
    (∀ (e : Env) (s : ℝ × ℝ) (a : ℤ) (v2 x1 : ℝ),
       v2 = clip (s.2 + ((a : ℝ) - 1) * e.F - e.df s.1 * e.g) (-max_speed) max_speed →
       x1 = clip (s.1 + v2) e.xmin e.xmax →
       x1 ≤ e.xmin → v2 < 0 → (e.step s a).2 = 1e-2)
    ∧ (∀ e : Env, e.angles ≠ [] → -(1e-2) - e.df e.xmin * e.g < 0 →
        0 < (e.step (e.xmin, -(1e-2)) 1).2) := by
  constructor
  · intro e s a v2 x1 hv2 hxc hc1 hc2
    subst hv2 hxc
    simp only [Env.step]
    rw [if_pos ⟨hc1, hc2⟩]
  · intro e hne hnd
    have hmm := e.xmin_le_xmax hne
    have hv1 : -(1e-2) + (((1 : ℤ) : ℝ) - 1) * e.F - e.df e.xmin * e.g < 0 := by
      push_cast
      linarith
    simp only [Env.step]
    have hv2neg : clip (-(1e-2) + (((1 : ℤ) : ℝ) - 1) * e.F - e.df e.xmin * e.g)
        (-max_speed) max_speed < 0 := by
      simp only [clip]
      refine lt_of_le_of_lt (min_le_left _ _) ?_
      rw [max_lt_iff]
      refine ⟨hv1, ?_⟩
      rw [max_speed]; norm_num
    have hx1eq : clip (e.xmin + clip (-(1e-2) + (((1 : ℤ) : ℝ) - 1) * e.F
        - e.df e.xmin * e.g) (-max_speed) max_speed) e.xmin e.xmax = e.xmin := by
      simp only [clip] at hv2neg ⊢
      rw [max_eq_right (by linarith), min_eq_left hmm]
    rw [hx1eq, if_pos ⟨le_refl _, hv2neg⟩]
    norm_num

/-- Witness for C6 at `E0` (where the derivative term vanishes). -/
theorem c6_witness :
    E0.angles ≠ [] ∧ -(1e-2) - E0.df E0.xmin * E0.g < 0
      ∧ 0 < (E0.step (E0.xmin, -(1e-2)) 1).2 := by
  have h1 : E0.angles ≠ [] := by simp [E0]
  have h2 : -(1e-2) - E0.df E0.xmin * E0.g < 0 := by
    rw [E0_df]
    norm_num
  exact ⟨h1, h2, c6_wall_bounce.2 E0 h1 h2⟩

/-- Counterexample to C9: `step` does not reject the out-of-range action 3; it
processes it through the ordinary update, yielding the velocity `2 * F`
(a double-strength push), which differs from the result of every valid
action. -/
theorem c9_counterexample :
    (E0.step (0, 0) 3).2 = 2 * E0.F
    ∧ (E0.step (0, 0) 3).2 ≠ (E0.step (0, 0) 0).2
    ∧ (E0.step (0, 0) 3).2 ≠ (E0.step (0, 0) 1).2
    ∧ (E0.step (0, 0) 3).2 ≠ (E0.step (0, 0) 2).2 := by
  have h3 : (E0.step (0, 0) 3).2 = 2 * (1e-3) := by
    simp only [Env.step, E0_df, E0_xmin, E0_xmax]
    norm_num [E0, clip, max_speed, min_def, max_def]
  have h0 : (E0.step (0, 0) 0).2 = -(1e-3) := by
    simp only [Env.step, E0_df, E0_xmin, E0_xmax]
    norm_num [E0, clip, max_speed, min_def, max_def]
  have h1 : (E0.step (0, 0) 1).2 = 0 := by
    simp only [Env.step, E0_df, E0_xmin, E0_xmax]
    norm_num [E0, clip, max_speed, min_def, max_def]
  have h2 : (E0.step (0, 0) 2).2 = 1e-3 := by
    simp only [Env.step, E0_df, E0_xmin, E0_xmax]
    norm_num [E0, clip, max_speed, min_def, max_def]
  refine ⟨?_, ?_, ?_, ?_⟩
  · rw [h3]; norm_num [E0]
  · rw [h3, h0]; norm_num
  · rw [h3, h1]; norm_num
  · rw [h3, h2]; norm_num

/-- C9 (amended): `step` performs no action validation; every integer action
`a`, including values outside `{0,1,2}`, is silently processed through the
same update with applied force `(a-1)*F` — equivalently, it behaves exactly
like the no-op action 1 started from velocity `v + (a-1)*F`. -/
theorem c9_no_validation (e : Env) (x v : ℝ) (a : ℤ) (ha : a < 0 ∨ 2 < a) :
    e.step (x, v) a = e.step (x, v + ((a : ℝ) - 1) * e.F) 1 := by
  have harg : v + ((a : ℝ) - 1) * e.F + (((1 : ℤ) : ℝ) - 1) * e.F - e.df x * e.g
      = v + ((a : ℝ) - 1) * e.F - e.df x * e.g := by
    push_cast
    ring
  simp only [Env.step]
  rw [harg]

/-- Witness for C9 (amended) at `E0`, state `(0, 0)`, invalid action 3. -/
theorem c9_witness :
    ((3 : ℤ) < 0 ∨ 2 < (3 : ℤ))
      ∧ E0.step (0, 0) 3 = E0.step (0, 0 + (((3 : ℤ) : ℝ) - 1) * E0.F) 1 :=
  ⟨by norm_num, c9_no_validation E0 0 0 3 (by norm_num)⟩

end MultiMountains
